import Mathlib

set_option autoImplicit false

/-!
Shallow embedding of the cookie-consent manager (`src/ccmanager.js`).

JavaScript strings are modelled as `List Char`.  The browser cookie jar is
modelled as an association list of name/value pairs; `document.cookie` read
back from the browser is the jar rendered with the standard "; " separator
and without attributes, which is exactly what `getCookie` in the source
parses.  Thrown JavaScript exceptions are modelled explicitly (`JsError`):
an operation that would throw reports the error instead of a result.
-/

namespace CookieConsentSpec

/-- JavaScript strings, modelled as lists of characters. -/
abbrev JStr := List Char

/-- Model of `String.prototype.split(sep)` for a one-character separator,
as used on `document.cookie.split(';')` and `cookie.trim().split('=')`. -/
def splitOnChar (sep : Char) : JStr → List JStr
  | [] => [[]]
  | c :: rest =>
    if c = sep then [] :: splitOnChar sep rest
    else
      match splitOnChar sep rest with
      | [] => [[c]]
      | p :: ps => (c :: p) :: ps

/-- Model of the leading-space stripping loop in `getCookie`
(`while (cookie.charAt(0) === ' ') cookie = cookie.substring(1, ...)`). -/
def trimSpaces : JStr → JStr
  | [] => []
  | c :: rest => if c = ' ' then trimSpaces rest else c :: rest

/-- Model of `String.prototype.trim()` as used in `viewCookies`
(`cookie.trim()`), restricted to the space character, which is the only
whitespace the browser inserts between jar entries. -/
def trimBoth (s : JStr) : JStr :=
  ((trimSpaces ((trimSpaces s).reverse)).reverse)

/-- The consent record `\x7baccepted, categories, timestamp\x7d` built by
`accept` and `reject`. -/
structure Decision where
  accepted : Bool
  categories : List JStr
  timestamp : JStr
deriving DecidableEq

/-- JSON string literal: `JSON.stringify` renders a string without
escape-worthy characters as `"` s `"`. -/
def quoteStr (s : JStr) : JStr := '"' :: (s ++ ['"'])

/-- Leading part of the serialized record, up to the `accepted` value. -/
def keyAccepted : JStr := "\x7b\"accepted\":".toList

/-- Middle part of the serialized record, up to the opening `[` of the
`categories` array. -/
def keyCategories : JStr := ",\"categories\":[".toList

/-- Part of the serialized record between the `]` of the array and the
`timestamp` value. -/
def keyTimestamp : JStr := ",\"timestamp\":".toList

/-- The JSON literal `true`. -/
def litTrue : JStr := "true".toList

/-- The JSON literal `false`. -/
def litFalse : JStr := "false".toList

/-- Comma-joined concatenation, as `JSON.stringify` renders array elements. -/
def joinComma : List JStr → JStr
  | [] => []
  | [s] => s
  | s :: rest => s ++ ',' :: joinComma rest

/-- Model of `JSON.stringify(consentData)` for the record built in
`accept`/`reject`: keys in insertion order, no whitespace.  Faithful for
decisions whose strings contain no characters `JSON.stringify` escapes
(see `wfDecision`). -/
def serializeDecision (d : Decision) : JStr :=
  keyAccepted ++ (if d.accepted then litTrue else litFalse) ++
  keyCategories ++ joinComma (d.categories.map quoteStr) ++ [']'] ++
  keyTimestamp ++ quoteStr d.timestamp ++ ['\x7d']

/-- Consume an expected literal prefix, or fail. -/
def expects (pre s : JStr) : Option JStr :=
  if pre.isPrefixOf s then some (s.drop pre.length) else none

/-- Parse the JSON literals `true` / `false`. -/
def parseBool (s : JStr) : Option (Bool × JStr) :=
  match expects litTrue s with
  | some rest => some (true, rest)
  | none =>
    match expects litFalse s with
    | some rest => some (false, rest)
    | none => none

/-- Parse a quoted JSON string (no escape sequences), returning its content
and the remaining input. -/
def parseQuoted : JStr → Option (JStr × JStr)
  | [] => none
  | c :: rest =>
    if c = '"' then
      match rest.dropWhile (fun ch => ch ≠ '"') with
      | [] => none
      | _ :: tail => some (rest.takeWhile (fun ch => ch ≠ '"'), tail)
    else none

/-- Parse a non-empty comma-separated list of quoted strings followed by
`]`; the fuel bounds the number of elements. -/
def parseStringsLoop : Nat → JStr → Option (List JStr × JStr)
  | 0, _ => none
  | fuel + 1, s =>
    match parseQuoted s with
    | none => none
    | some (str, rest) =>
      match rest with
      | [] => none
      | c :: rest2 =>
        if c = ',' then
          match parseStringsLoop fuel rest2 with
          | none => none
          | some (strs, tail) => some (str :: strs, tail)
        else if c = ']' then some ([str], rest2)
        else none

/-- Parse the content of a JSON string array after its opening `[`. -/
def parseStrings (s : JStr) : Option (List JStr × JStr) :=
  match s with
  | [] => none
  | c :: rest =>
    if c = ']' then some ([], rest) else parseStringsLoop s.length (c :: rest)

/-- Model of `JSON.parse` as applied to the persisted consent record: it
succeeds exactly on the strings `JSON.stringify` produces for a decision
record and fails (`none`, i.e. a thrown `SyntaxError`) on anything else.
Every concrete malformed input considered in the development is also
rejected by the real `JSON.parse`. -/
def parseDecision (s : JStr) : Option Decision :=
  (expects keyAccepted s).bind fun s1 =>
  (parseBool s1).bind fun p =>
  (expects keyCategories p.2).bind fun s3 =>
  (parseStrings s3).bind fun q =>
  (expects keyTimestamp q.2).bind fun s5 =>
  (parseQuoted s5).bind fun t =>
  if t.2 = ['\x7d'] then some ⟨p.1, q.1, t.1⟩ else none

/-- The default `config.cookieName`. -/
def cookieNameDefault : JStr := "cookie_consent".toList

/-- Loop body of `getCookie`: for each `';'`-separated piece, strip leading
spaces, test `cookie.indexOf(nameEQ) === 0`, and on a match return
`cookie.substring(nameEQ.length, cookie.length)`. -/
def getCookieLoop (nameEQ : JStr) : List JStr → Option JStr
  | [] => none
  | piece :: rest =>
    let t := trimSpaces piece
    if nameEQ.isPrefixOf t then some (t.drop nameEQ.length)
    else getCookieLoop nameEQ rest

/-- Model of `getCookie(name)` reading the rendered `document.cookie`. -/
def getCookie (doc name : JStr) : Option JStr :=
  getCookieLoop (name ++ ['=']) (splitOnChar ';' doc)

/-- The literal `";expires="` from `setCookie`. -/
def expiresAttr : JStr := ";expires=".toList

/-- The literal `";path=/;SameSite=Strict"` from `setCookie`. -/
def tailAttrs : JStr := ";path=/;SameSite=Strict".toList

/-- The string `setCookie` assigns to `document.cookie`:
`name + '=' + value + ';' + expires + ';path=/;SameSite=Strict'`. -/
def setCookieString (name value expires : JStr) : JStr :=
  name ++ '=' :: value ++ expiresAttr ++ expires ++ tailAttrs

/-- The browser cookie jar: an association list of name/value pairs. -/
abbrev Jar := List (JStr × JStr)

/-- First value stored under a name, if any. -/
def jarGet (jar : Jar) (name : JStr) : Option JStr :=
  match jar with
  | [] => none
  | (n, v) :: rest => if n = name then some v else jarGet rest name

/-- Browser effect of a `document.cookie = "name=value;..."` assignment:
update the existing record of that name, or append a new one.  The
assigned value is the text before the first `';'`, i.e. exactly the
`value` argument of `setCookie` when it contains no `';'`. -/
def jarSet : Jar → JStr → JStr → Jar
  | [], name, value => [(name, value)]
  | (n, v) :: rest, name, value =>
    if n = name then (n, value) :: rest
    else (n, v) :: jarSet rest name value

/-- Browser effect of `deleteCookie` (an assignment with an expiry in the
past): the record is removed. -/
def jarDelete : Jar → JStr → Jar
  | [], _ => []
  | (n, v) :: rest, name =>
    if n = name then jarDelete rest name else (n, v) :: jarDelete rest name

/-- The `document.cookie` string the browser reports for a jar: entries as
`name=value`, joined by `"; "`, without attributes. -/
def renderJar : Jar → JStr
  | [] => []
  | [(n, v)] => n ++ '=' :: v
  | (n, v) :: rest => n ++ '=' :: v ++ ';' :: ' ' :: renderJar rest

/-- Thrown JavaScript exceptions relevant to this code: `TypeError` from
dereferencing the absent container, `SyntaxError` from `JSON.parse`. -/
inductive JsError where
  | typeError
  | syntaxError
deriving DecidableEq

/-- Model of `getConsent()`: `consent ? JSON.parse(consent) : null`.  The
`JSON.parse` call is not guarded, so a stored value that fails to parse
makes `getConsent` throw (modelled as `Except.error .syntaxError`). -/
def getConsent (jar : Jar) (name : JStr) : Except JsError (Option Decision) :=
  match getCookie (renderJar jar) name with
  | none => Except.ok none
  | some v =>
    if v = [] then Except.ok none
    else
      match parseDecision v with
      | some d => Except.ok (some d)
      | none => Except.error JsError.syntaxError

/-- Model of `hasConsent(category)`: false if no decision or not accepted,
else membership in `categories`; a throw in `getConsent` propagates. -/
def hasConsent (jar : Jar) (name category : JStr) : Except JsError Bool :=
  match getConsent jar name with
  | Except.error e => Except.error e
  | Except.ok none => Except.ok false
  | Except.ok (some d) =>
    Except.ok (if d.accepted then decide (category ∈ d.categories) else false)

/-- Loop body of `viewCookies`: trim each piece, split it on `'='`,
destructure into the first two parts (`value || ''`), and keep entries
with a non-empty name. -/
def viewCookiesLoop : List JStr → List (JStr × JStr)
  | [] => []
  | piece :: rest =>
    let t := trimBoth piece
    let parts := splitOnChar '=' t
    let nm := parts.headD []
    let vl := (parts.drop 1).headD []
    if nm = [] then viewCookiesLoop rest else (nm, vl) :: viewCookiesLoop rest

/-- Model of `viewCookies()`: the name/value list built from
`document.cookie` (also the payload of the "cookies-viewed" event and the
method's return value). -/
def viewCookies (doc : JStr) : List (JStr × JStr) :=
  viewCookiesLoop (splitOnChar ';' doc)

/-- A category checkbox (`.js-cookie-category` input): its `value`
attribute and its checked state at call time. -/
structure Checkbox where
  value : JStr
  checked : Bool
deriving DecidableEq

/-- The banner container element: its `style.display` (`block` vs `none`),
its `is-visible` class, and the category checkboxes it contains. -/
structure Container where
  displayBlock : Bool
  visibleCls : Bool
  boxes : List Checkbox
deriving DecidableEq

/-- Manager state: the container found at initialisation (absent when the
selector matched nothing) and the browser jar. -/
structure CCState where
  container : Option Container
  jar : Jar
deriving DecidableEq

/-- The custom events dispatched by `triggerEvent`, with their payloads. -/
inductive CCEvent where
  | bannerShown
  | bannerHidden
  | consentGiven (d : Decision)
  | consentRejected (d : Decision)
  | consentRevoked
  | cookiesViewed (cs : List (JStr × JStr))
deriving DecidableEq

/-- Model of `getSelectedCategories()`: the values of the checked
checkboxes, in document order. -/
def getSelectedCategories (boxes : List Checkbox) : List JStr :=
  boxes.foldl (fun acc b => if b.checked then acc ++ [b.value] else acc) []

/-- The literal category `"necessary"`. -/
def necessaryCat : JStr := "necessary".toList

/-- The literal category `"analytics"`. -/
def analyticsCat : JStr := "analytics".toList

/-- The literal category `"marketing"`. -/
def marketingCat : JStr := "marketing".toList

/-- The fallback list `['necessary', 'analytics', 'marketing']` used by
`accept` when no checkbox is checked. -/
def defaultCategories : List JStr := [necessaryCat, analyticsCat, marketingCat]

/-- The `consentData` record built in `accept()`. -/
def acceptDecision (boxes : List Checkbox) (now : JStr) : Decision :=
  let categories := getSelectedCategories boxes
  { accepted := true
    categories := if categories.length > 0 then categories else defaultCategories
    timestamp := now }

/-- The `consentData` record built in `reject()`. -/
def rejectDecision (now : JStr) : Decision :=
  { accepted := false, categories := [necessaryCat], timestamp := now }

/-- Result of a public operation: the state after it, the events it
dispatched, and the exception it threw, if any. -/
structure OpResult where
  state : CCState
  events : List CCEvent
  error : Option JsError
deriving DecidableEq

/-- Settled effect of `show()` on the container: `display = 'block'`
immediately, plus the deferred `is-visible` class add.  (The timer
interleaving itself is modelled separately by `runCalls`.) -/
def showContainer (c : Container) : Container :=
  { c with displayBlock := true, visibleCls := true }

/-- Settled effect of `hide()` on the container: the `is-visible` class
removal immediately, plus the deferred `display = 'none'`. -/
def hideContainer (c : Container) : Container :=
  { c with visibleCls := false, displayBlock := false }

/-- Model of `show()`: dereferences `this.container`, so it throws a
`TypeError` when the container selector matched nothing. -/
def showOp (st : CCState) : OpResult :=
  match st.container with
  | none => ⟨st, [], some JsError.typeError⟩
  | some c =>
    ⟨{ st with container := some (showContainer c) }, [CCEvent.bannerShown], none⟩

/-- Model of `hide()`: dereferences `this.container`, so it throws a
`TypeError` when the container selector matched nothing. -/
def hideOp (st : CCState) : OpResult :=
  match st.container with
  | none => ⟨st, [], some JsError.typeError⟩
  | some c =>
    ⟨{ st with container := some (hideContainer c) }, [CCEvent.bannerHidden], none⟩

/-- Model of `accept()`: `getSelectedCategories` dereferences the container
first (throwing before any write when it is absent); otherwise the decision
is persisted, `hide()` runs, and "consent-given" fires with the decision. -/
def acceptOp (st : CCState) (now : JStr) : OpResult :=
  match st.container with
  | none => ⟨st, [], some JsError.typeError⟩
  | some c =>
    let d := acceptDecision c.boxes now
    let jar2 := jarSet st.jar cookieNameDefault (serializeDecision d)
    ⟨⟨some (hideContainer c), jar2⟩,
      [CCEvent.bannerHidden, CCEvent.consentGiven d], none⟩

/-- Model of `reject()`: the decision is persisted first; `hide()` then
dereferences the container, so with no container the cookie is written and
the call still throws before dispatching any event. -/
def rejectOp (st : CCState) (now : JStr) : OpResult :=
  let d := rejectDecision now
  let jar2 := jarSet st.jar cookieNameDefault (serializeDecision d)
  match st.container with
  | none => ⟨⟨none, jar2⟩, [], some JsError.typeError⟩
  | some c =>
    ⟨⟨some (hideContainer c), jar2⟩,
      [CCEvent.bannerHidden, CCEvent.consentRejected d], none⟩

/-- Model of `revoke()`: `deleteCookie` succeeds, then `show()`
dereferences the container, so with no container the record is deleted and
the call still throws. -/
def revokeOp (st : CCState) : OpResult :=
  let jar2 := jarDelete st.jar cookieNameDefault
  match st.container with
  | none => ⟨⟨none, jar2⟩, [], some JsError.typeError⟩
  | some c =>
    ⟨⟨some (showContainer c), jar2⟩,
      [CCEvent.bannerShown, CCEvent.consentRevoked], none⟩

/-- JavaScript truthiness of the `getCookie` result: `null` and the empty
string are falsy. -/
def jsTruthyStr : Option JStr → Bool
  | none => false
  | some v => !v.isEmpty

/-- Model of `init()` restricted to its state effects: with no matching
container it warns and returns (inert, no throw); otherwise `checkConsent`
shows the banner when the raw cookie value is falsy and hides it
otherwise.  Positioning, event binding and the inline renderer are
presentational and throw nothing. -/
def initOp (found : Option Container) (jar : Jar) : OpResult :=
  match found with
  | none => ⟨⟨none, jar⟩, [], none⟩
  | some c =>
    let raw := getCookie (renderJar jar) cookieNameDefault
    if jsTruthyStr raw then
      ⟨⟨some (hideContainer c), jar⟩, [CCEvent.bannerHidden], none⟩
    else
      ⟨⟨some (showContainer c), jar⟩, [CCEvent.bannerShown], none⟩

/-- Result of `viewCookies()` together with the event it dispatches. -/
def viewCookiesOp (jar : Jar) : (List (JStr × JStr)) × List CCEvent :=
  let cs := viewCookies (renderJar jar)
  (cs, [CCEvent.cookiesViewed cs])

/-- The two visibility transitions of the banner. -/
inductive BannerCall where
  | showCall
  | hideCall
deriving DecidableEq

/-- The deferred actions the two `setTimeout` callbacks perform:
`classList.add('is-visible')` for `show`, `style.display = 'none'` for
`hide`.  They touch disjoint fields, so the firing order of simultaneous
timers cannot affect the final state. -/
inductive TimerAction where
  | addVisibleCls
  | setDisplayNone
deriving DecidableEq

/-- Banner fields touched by the visibility code. -/
structure TBanner where
  displayBlock : Bool
  visibleCls : Bool
deriving DecidableEq

/-- Banner plus the pending `setTimeout` callbacks (absolute fire time and
action); the source never cancels a pending timer. -/
structure TimedState where
  banner : TBanner
  pending : List (Nat × TimerAction)
deriving DecidableEq

/-- Effect of one timer callback. -/
def applyTimer (b : TBanner) : TimerAction → TBanner
  | TimerAction.addVisibleCls => { b with visibleCls := true }
  | TimerAction.setDisplayNone => { b with displayBlock := false }

/-- Fire a list of timer callbacks in order. -/
def fireTimers (b : TBanner) (ts : List (Nat × TimerAction)) : TBanner :=
  ts.foldl (fun acc p => applyTimer acc p.2) b

/-- Fire every pending timer due at or before time `t` (the event loop
runs due callbacks before the next user call). -/
def fireDue (t : Nat) (s : TimedState) : TimedState :=
  { banner := fireTimers s.banner (s.pending.filter (fun p => decide (p.1 ≤ t))),
    pending := s.pending.filter (fun p => decide (t < p.1)) }

/-- Immediate effect of `show()` / `hide()` at time `t`: the synchronous
style/class mutation plus one scheduled callback (`t+10` for show, `t+300`
for hide), exactly as in the source. -/
def applyCall (t : Nat) (s : TimedState) : BannerCall → TimedState
  | BannerCall.showCall =>
    { banner := { s.banner with displayBlock := true },
      pending := s.pending ++ [(t + 10, TimerAction.addVisibleCls)] }
  | BannerCall.hideCall =>
    { banner := { s.banner with visibleCls := false },
      pending := s.pending ++ [(t + 300, TimerAction.setDisplayNone)] }

/-- Process one timestamped call: run due timers, then the call itself. -/
def stepCall (s : TimedState) (e : Nat × BannerCall) : TimedState :=
  applyCall e.1 (fireDue e.1 s) e.2

/-- Fire every still-pending timer after the last call. -/
def flushAll (s : TimedState) : TimedState :=
  { banner := fireTimers s.banner s.pending, pending := [] }

/-- Run a chronological sequence of `show`/`hide` calls from `s0` and let
all remaining timers fire: the settled banner state. -/
def runCalls (s0 : TimedState) (es : List (Nat × BannerCall)) : TimedState :=
  flushAll (es.foldl stepCall s0)

/-- Whether a call is `show()` (requesting a displayed banner). -/
def isShowCall : BannerCall → Bool
  | BannerCall.showCall => true
  | BannerCall.hideCall => false

/-- Characters that `JSON.stringify` emits verbatim inside a string and
that are inert in a cookie value: not `"`, not `\`, not `;`, and above
the space/control range. -/
def wfChar (c : Char) : Prop :=
  c ≠ '"' ∧ c ≠ '\\' ∧ c ≠ ';' ∧ 32 < c.toNat

/-- A string of well-formed characters. -/
def wfString (s : JStr) : Prop := ∀ c ∈ s, wfChar c

/-- A well-formed decision: all category names and the timestamp are
well-formed strings (true of every value the library itself writes). -/
def wfDecision (d : Decision) : Prop :=
  (∀ cat ∈ d.categories, wfString cat) ∧ wfString d.timestamp

/-- A cookie name as browsers admit them: non-empty, without `;`, `=` or
spaces. -/
def wfName (n : JStr) : Prop :=
  n ≠ [] ∧ ∀ c ∈ n, c ≠ ';' ∧ c ≠ '=' ∧ c ≠ ' '

/-- A cookie value as stored in the jar: without `;` (the jar separator)
and without spaces (browsers do not store surrounding whitespace). -/
def wfValue (v : JStr) : Prop := ∀ c ∈ v, c ≠ ';' ∧ c ≠ ' '

/-- A hygienic jar: every entry has a well-formed name and value. -/
def wfJar (jar : Jar) : Prop := ∀ p ∈ jar, wfName p.1 ∧ wfValue p.2

instance (c : Char) : Decidable (wfChar c) := by
  unfold wfChar
  infer_instance

instance (s : JStr) : Decidable (wfString s) := by
  unfold wfString
  infer_instance

instance (d : Decision) : Decidable (wfDecision d) := by
  unfold wfDecision
  infer_instance

instance (n : JStr) : Decidable (wfName n) := by
  unfold wfName
  infer_instance

instance (v : JStr) : Decidable (wfValue v) := by
  unfold wfValue
  infer_instance

instance (jar : Jar) : Decidable (wfJar jar) := by
  unfold wfJar
  infer_instance

/-- Unreserved characters of the ECMAScript `encodeURIComponent` builtin:
ASCII alphanumerics and `- _ . ! ~ * ' ( )`. -/
def isUnreservedURI (c : Char) : Bool :=
  c.isAlpha || c.isDigit ||
  c = '-' || c = '_' || c = '.' || c = '!' || c = '~' || c = '*' ||
  c = Char.ofNat 39 || c = Char.ofNat 40 || c = Char.ofNat 41

/-- Upper-case hexadecimal digit for a value below 16. -/
def hexDigitChar (n : Nat) : Char :=
  if n < 10 then Char.ofNat (48 + n) else Char.ofNat (55 + n)

/-- Percent-encoding of one byte. -/
def percentByte (b : Nat) : JStr :=
  ['%', hexDigitChar (b / 16), hexDigitChar (b % 16)]

/-- UTF-8 bytes of a code point. -/
def utf8Bytes (n : Nat) : List Nat :=
  if n < 128 then [n]
  else if n < 2048 then [192 + n / 64, 128 + n % 64]
  else if n < 65536 then [224 + n / 4096, 128 + (n / 64) % 64, 128 + n % 64]
  else [240 + n / 262144, 128 + (n / 4096) % 64, 128 + (n / 64) % 64, 128 + n % 64]

/-- Model of the ECMAScript `encodeURIComponent` builtin — the
"URL-encoding" the spec's persisted-record layout refers to.  This is the
spec-side definition for the refinement claim about the stored value; the
source itself never calls it when writing the record. -/
def encodeURIComponent (s : JStr) : JStr :=
  s.foldr
    (fun c acc =>
      (if isUnreservedURI c then [c]
       else (utf8Bytes c.toNat).foldr (fun b a => percentByte b ++ a) []) ++ acc)
    []

/-- The two user choices that persist a decision. -/
inductive UserChoice where
  | acceptChoice
  | rejectChoice
deriving DecidableEq

/-- The decision record a user choice persists, given the checkbox state at
call time (`accept` consults it, `reject` ignores it). -/
def writtenDecision : UserChoice → List Checkbox → JStr → Decision
  | UserChoice.acceptChoice, boxes, now => acceptDecision boxes now
  | UserChoice.rejectChoice, _, now => rejectDecision now

/-- Sample timestamp for concrete evaluations. -/
def tsWitness : JStr := "2024-01-15T10:30:00.000Z".toList

/-- A checked analytics checkbox. -/
def boxWitnessAnalytics : Checkbox := { value := analyticsCat, checked := true }

/-- A banner container holding one checked analytics checkbox. -/
def containerWitness : Container :=
  { displayBlock := true, visibleCls := true, boxes := [boxWitnessAnalytics] }

/-- A sample well-formed decision. -/
def dWitness : Decision :=
  { accepted := true, categories := [analyticsCat], timestamp := tsWitness }

/-- A stored value that is not valid JSON. -/
def valMalformed : JStr := "garbage".toList

/-- A jar whose consent record is malformed. -/
def jarMalformed : Jar := [(cookieNameDefault, valMalformed)]

/-- Sample cookie name for `viewCookies` evaluations. -/
def nameView : JStr := "abc".toList

/-- Sample cookie value containing an `'='`. -/
def valView : JStr := "b=c".toList

/-- A jar with one cookie whose value contains an `'='`. -/
def jarView : Jar := [(nameView, valView)]

/-!
Helper lemmas: JSON round trip.
-/

theorem litTrue_eq : litTrue = ['t', 'r', 'u', 'e'] := rfl

theorem litFalse_eq : litFalse = ['f', 'a', 'l', 's', 'e'] := rfl

theorem joinComma_nil : joinComma [] = [] := rfl

theorem joinComma_single (s : JStr) : joinComma [s] = s := rfl

theorem joinComma_cons2 (s t : JStr) (rest : List JStr) :
    joinComma (s :: t :: rest) = s ++ ',' :: joinComma (t :: rest) := rfl

theorem expects_append (p r : JStr) : expects p (p ++ r) = some r := by
  unfold expects
  rw [if_pos (by simp)]
  simp

theorem dropWhile_stop (stop : Char) (s r : JStr) (h : ∀ c ∈ s, c ≠ stop) :
    (s ++ stop :: r).dropWhile (fun ch => ch ≠ stop) = stop :: r := by
  induction s with
  | nil => simp [List.dropWhile]
  | cons c cs ih =>
    have hc : c ≠ stop := h c (by simp)
    have h2 := ih (fun x hx => h x (List.mem_cons_of_mem _ hx))
    simp only [List.cons_append, List.dropWhile_cons]
    rw [if_pos (by simp [hc])]
    exact h2

theorem takeWhile_stop (stop : Char) (s r : JStr) (h : ∀ c ∈ s, c ≠ stop) :
    (s ++ stop :: r).takeWhile (fun ch => ch ≠ stop) = s := by
  induction s with
  | nil => simp
  | cons c cs ih =>
    have hc : c ≠ stop := h c (by simp)
    have h2 := ih (fun x hx => h x (List.mem_cons_of_mem _ hx))
    simp only [List.cons_append, List.takeWhile_cons]
    rw [if_pos (by simp [hc]), h2]

theorem parseQuoted_cons (c : Char) (rest : JStr) :
    parseQuoted (c :: rest) =
      if c = '"' then
        match rest.dropWhile (fun ch => ch ≠ '"') with
        | [] => none
        | _ :: tail => some (rest.takeWhile (fun ch => ch ≠ '"'), tail)
      else none := rfl

theorem parseQuoted_quote (s r : JStr) (h : ∀ c ∈ s, c ≠ '"') :
    parseQuoted (quoteStr s ++ r) = some (s, r) := by
  have key : quoteStr s ++ r = '"' :: (s ++ '"' :: r) := by simp [quoteStr]
  rw [key, parseQuoted_cons, if_pos rfl, dropWhile_stop '"' s r h]
  show some ((s ++ '"' :: r).takeWhile (fun ch => ch ≠ '"'), r) = some (s, r)
  rw [takeWhile_stop '"' s r h]

theorem parseBool_true (r : JStr) : parseBool (litTrue ++ r) = some (true, r) := by
  unfold parseBool
  rw [expects_append]

theorem parseBool_false (r : JStr) : parseBool (litFalse ++ r) = some (false, r) := by
  have h1 : litTrue.isPrefixOf (litFalse ++ r) = false := by
    rw [litTrue_eq, litFalse_eq]; rfl
  have h2 : expects litTrue (litFalse ++ r) = none := by
    unfold expects; rw [h1]; rfl
  unfold parseBool
  rw [h2, expects_append]

theorem length_le_joinComma (cats : List JStr) :
    cats.length ≤ (joinComma (cats.map quoteStr)).length := by
  induction cats with
  | nil => simp [joinComma_nil]
  | cons c cs ih =>
    cases cs with
    | nil => simp [joinComma_single, quoteStr]
    | cons c2 cs2 =>
      rw [List.map_cons, List.map_cons, joinComma_cons2]
      rw [List.map_cons] at ih
      simp only [List.length_append, List.length_cons, quoteStr] at *
      omega

theorem parseStringsLoop_succ (f : Nat) (s : JStr) :
    parseStringsLoop (f + 1) s =
      match parseQuoted s with
      | none => none
      | some (str, rest) =>
        match rest with
        | [] => none
        | c :: rest2 =>
          if c = ',' then
            match parseStringsLoop f rest2 with
            | none => none
            | some (strs, tail) => some (str :: strs, tail)
          else if c = ']' then some ([str], rest2)
          else none := rfl

theorem parseStringsLoop_join :
    ∀ (cats : List JStr) (r : JStr) (fuel : Nat), cats ≠ [] → cats.length ≤ fuel →
      (∀ cat ∈ cats, ∀ c ∈ cat, c ≠ '"') →
      parseStringsLoop fuel (joinComma (cats.map quoteStr) ++ ']' :: r) = some (cats, r) := by
  intro cats
  induction cats with
  | nil => intro r fuel hne _ _; exact absurd rfl hne
  | cons c0 cs ih =>
    intro r fuel _ hfuel hw
    cases fuel with
    | zero => simp at hfuel
    | succ f =>
      cases cs with
      | nil =>
        rw [List.map_cons, List.map_nil, joinComma_single]
        rw [parseStringsLoop_succ, parseQuoted_quote c0 (']' :: r) (hw c0 (by simp))]
        simp
      | cons c1 cs2 =>
        rw [List.map_cons, List.map_cons, joinComma_cons2,
          List.append_assoc, List.cons_append]
        rw [parseStringsLoop_succ, parseQuoted_quote c0 _ (hw c0 (by simp))]
        have hlen : (c1 :: cs2).length ≤ f := by
          simp only [List.length_cons] at hfuel ⊢; omega
        have hrec := ih r f (by simp) hlen
          (fun cat hcat c hc => hw cat (List.mem_cons_of_mem _ hcat) c hc)
        rw [List.map_cons] at hrec
        simp [hrec]

theorem parseStrings_cons (c : Char) (rest : JStr) :
    parseStrings (c :: rest) =
      if c = ']' then some ([], rest)
      else parseStringsLoop (c :: rest).length (c :: rest) := rfl

theorem parseStrings_join (cats : List JStr) (r : JStr)
    (hw : ∀ cat ∈ cats, ∀ c ∈ cat, c ≠ '"') :
    parseStrings (joinComma (cats.map quoteStr) ++ ']' :: r) = some (cats, r) := by
  cases cats with
  | nil => simp [joinComma_nil, parseStrings_cons]
  | cons c0 cs =>
    have hT : ∃ T, joinComma ((c0 :: cs).map quoteStr) ++ ']' :: r = '"' :: T := by
      cases cs with
      | nil =>
        refine ⟨c0 ++ '"' :: ']' :: r, ?_⟩
        simp [joinComma_single, quoteStr]
      | cons c1 cs2 =>
        refine ⟨c0 ++ '"' :: ',' :: (joinComma ((c1 :: cs2).map quoteStr) ++ ']' :: r), ?_⟩
        simp [joinComma_cons2, quoteStr]
    obtain ⟨T, hT⟩ := hT
    have hfuel : (c0 :: cs).length ≤ (joinComma ((c0 :: cs).map quoteStr) ++ ']' :: r).length := by
      have h1 := length_le_joinComma (c0 :: cs)
      have h2 : (joinComma ((c0 :: cs).map quoteStr)).length ≤
          (joinComma ((c0 :: cs).map quoteStr) ++ ']' :: r).length := by simp
      omega
    rw [hT, parseStrings_cons, if_neg (by decide), ← hT]
    exact parseStringsLoop_join (c0 :: cs) r _ (by simp) hfuel hw

theorem parseDecision_serialize (d : Decision) (hd : wfDecision d) :
    parseDecision (serializeDecision d) = some d := by
  obtain ⟨acc, cats, ts⟩ := d
  obtain ⟨hcats, hts⟩ := hd
  have hcats' : ∀ cat ∈ cats, ∀ c ∈ cat, c ≠ '"' :=
    fun cat hc c hcc => ((hcats cat hc) c hcc).1
  have hts' : ∀ c ∈ ts, c ≠ '"' := fun c hc => (hts c hc).1
  have hparse := parseStrings_join cats (keyTimestamp ++ (quoteStr ts ++ ['\x7d'])) hcats'
  have hquote := parseQuoted_quote ts ['\x7d'] hts'
  unfold serializeDecision parseDecision
  simp only [List.append_assoc, List.singleton_append, List.cons_append, List.nil_append]
  cases acc with
  | true =>
    simp only [if_true, expects_append, Option.some_bind, parseBool_true, hparse, hquote]
  | false =>
    simp only [if_false, Bool.false_eq_true, expects_append, Option.some_bind, parseBool_false,
      hparse, hquote]
    simp

/-!
Helper lemmas: cookie jar and `getCookie`.
-/

theorem splitOnChar_ne_nil (sep : Char) (s : JStr) : splitOnChar sep s ≠ [] := by
  induction s with
  | nil => simp [splitOnChar]
  | cons c cs ih =>
    simp only [splitOnChar]
    by_cases hc : c = sep
    · simp [hc]
    · rw [if_neg hc]
      cases h : splitOnChar sep cs with
      | nil => simp
      | cons p ps => simp

theorem splitOnChar_sepFree (sep : Char) (s : JStr) (h : ∀ c ∈ s, c ≠ sep) :
    splitOnChar sep s = [s] := by
  induction s with
  | nil => rfl
  | cons c cs ih =>
    have hc := h c (by simp)
    simp only [splitOnChar]
    rw [if_neg hc, ih (fun x hx => h x (List.mem_cons_of_mem _ hx))]

theorem splitOnChar_append_sep (sep : Char) (a b : JStr) (h : ∀ c ∈ a, c ≠ sep) :
    splitOnChar sep (a ++ sep :: b) = a :: splitOnChar sep b := by
  induction a with
  | nil => simp [splitOnChar]
  | cons c cs ih =>
    have hc := h c (by simp)
    simp only [List.cons_append, splitOnChar, List.append_eq]
    rw [if_neg hc, ih (fun x hx => h x (List.mem_cons_of_mem _ hx))]

theorem splitOnChar_headD (sep : Char) (v : JStr) :
    (splitOnChar sep v).headD [] = v.takeWhile (fun c => c ≠ sep) := by
  induction v with
  | nil => rfl
  | cons c cs ih =>
    simp only [splitOnChar, List.takeWhile_cons]
    by_cases hc : c = sep
    · simp [hc]
    · rw [if_neg hc, if_pos (by simp [hc])]
      cases h : splitOnChar sep cs with
      | nil => exact absurd h (splitOnChar_ne_nil sep cs)
      | cons p ps =>
        rw [h] at ih
        simp only [List.headD_cons] at ih ⊢
        rw [ih]

theorem trimSpaces_cons_ne (c : Char) (cs : JStr) (h : c ≠ ' ') :
    trimSpaces (c :: cs) = c :: cs := by
  simp only [trimSpaces]
  rw [if_neg h]

theorem trimSpaces_space (cs : JStr) : trimSpaces (' ' :: cs) = trimSpaces cs := by
  simp [trimSpaces]

theorem trimSpaces_id (s : JStr) (h : ∀ c ∈ s, c ≠ ' ') : trimSpaces s = s := by
  cases s with
  | nil => rfl
  | cons c cs => exact trimSpaces_cons_ne c cs (h c (by simp))

theorem trimBoth_id (s : JStr) (h : ∀ c ∈ s, c ≠ ' ') : trimBoth s = s := by
  unfold trimBoth
  rw [trimSpaces_id s h, trimSpaces_id s.reverse (fun c hc => h c (List.mem_reverse.mp hc)),
    List.reverse_reverse]

theorem trimBoth_space (s : JStr) : trimBoth (' ' :: s) = trimBoth s := by
  unfold trimBoth
  rw [trimSpaces_space]

theorem isPrefixOf_nameEq (name : JStr) : ∀ (n : JStr) (v : JStr),
    ('=' : Char) ∉ name → ('=' : Char) ∉ n →
    (((name ++ ['=']).isPrefixOf (n ++ '=' :: v)) = true ↔ name = n) := by
  induction name with
  | nil =>
    intro n v _ hn
    cases n with
    | nil => simp [List.isPrefixOf]
    | cons b bs =>
      have hb : b ≠ '=' := fun hb => hn (by rw [← hb]; exact List.mem_cons_self b bs)
      simp [List.isPrefixOf, Ne.symm hb]
  | cons a as ih =>
    intro n v hname hn
    have ha : a ≠ '=' := fun h' => hname (by rw [← h']; exact List.mem_cons_self a as)
    cases n with
    | nil => simp [List.isPrefixOf, ha]
    | cons b bs =>
      have hname' : ('=' : Char) ∉ as := fun h' => hname (List.mem_cons_of_mem _ h')
      have hn' : ('=' : Char) ∉ bs := fun h' => hn (List.mem_cons_of_mem _ h')
      simp only [List.cons_append, List.isPrefixOf, Bool.and_eq_true, beq_iff_eq,
        List.append_eq]
      rw [ih bs v hname' hn']
      simp [List.cons_eq_cons]

theorem isPrefixOf_self_value (n v : JStr) :
    ((n ++ ['=']).isPrefixOf (n ++ '=' :: v)) = true ∧
    (n ++ '=' :: v).drop (n ++ ['=']).length = v := by
  have hsh : n ++ '=' :: v = (n ++ ['=']) ++ v := by simp
  constructor
  · rw [hsh]
    simp
  · rw [hsh, List.drop_left]

theorem getCookieLoop_space (nameEQ s : JStr) :
    getCookieLoop nameEQ (splitOnChar ';' (' ' :: s)) =
      getCookieLoop nameEQ (splitOnChar ';' s) := by
  cases hs : splitOnChar ';' s with
  | nil => exact absurd hs (splitOnChar_ne_nil ';' s)
  | cons p ps =>
    have h2 : splitOnChar ';' (' ' :: s) = (' ' :: p) :: ps := by
      simp only [splitOnChar]
      rw [if_neg (by decide), hs]
    rw [h2]
    simp only [getCookieLoop]
    rw [trimSpaces_space]

theorem renderJar_nil : renderJar [] = [] := rfl

theorem renderJar_single (n v : JStr) : renderJar [(n, v)] = n ++ '=' :: v := rfl

theorem renderJar_cons2 (n v : JStr) (p : JStr × JStr) (rest : Jar) :
    renderJar ((n, v) :: p :: rest) = n ++ '=' :: v ++ ';' :: ' ' :: renderJar (p :: rest) := rfl

theorem getCookie_renderJar : ∀ (jar : Jar) (name : JStr), wfJar jar → ('=' : Char) ∉ name →
    getCookie (renderJar jar) name = jarGet jar name := by
  intro jar
  induction jar with
  | nil =>
    intro name _ _
    show getCookieLoop (name ++ ['=']) (splitOnChar ';' []) = none
    simp [splitOnChar, getCookieLoop, trimSpaces, List.isPrefixOf_iff_prefix]
  | cons hd rest ih =>
    intro name hjar hname
    obtain ⟨n, v⟩ := hd
    obtain ⟨⟨hne, hnchars⟩, hvchars⟩ := hjar (n, v) (by simp)
    have hnsemi : ∀ c ∈ n, c ≠ ';' := fun c hc => (hnchars c hc).1
    have hneq : ('=' : Char) ∉ n := fun hc => (hnchars '=' hc).2.1 rfl
    have hnspace : ∀ c ∈ n, c ≠ ' ' := fun c hc => (hnchars c hc).2.2
    have hvsemi : ∀ c ∈ v, c ≠ ';' := fun c hc => (hvchars c hc).1
    have hpiece : ∀ c ∈ n ++ '=' :: v, c ≠ ';' := by
      intro c hc
      rcases List.mem_append.mp hc with h1 | h1
      · exact hnsemi c h1
      · rcases List.mem_cons.mp h1 with h2 | h2
        · rw [h2]; decide
        · exact hvsemi c h2
    have htrim : trimSpaces (n ++ '=' :: v) = n ++ '=' :: v := by
      apply trimSpaces_id
      intro c hc
      rcases List.mem_append.mp hc with h1 | h1
      · exact hnspace c h1
      · rcases List.mem_cons.mp h1 with h2 | h2
        · rw [h2]; decide
        · exact (hvchars c h2).2
    have hjarGet : jarGet ((n, v) :: rest) name = if n = name then some v else jarGet rest name :=
      rfl
    cases rest with
    | nil =>
      rw [renderJar_single]
      show getCookieLoop (name ++ ['=']) (splitOnChar ';' (n ++ '=' :: v)) = _
      rw [splitOnChar_sepFree ';' _ hpiece]
      simp only [getCookieLoop]
      rw [htrim, hjarGet]
      by_cases heq : name = n
      · subst heq
        rw [if_pos (isPrefixOf_self_value name v).1, if_pos rfl,
          (isPrefixOf_self_value name v).2]
      · rw [if_neg (fun hcontra => heq ((isPrefixOf_nameEq name n v hname hneq).mp hcontra)),
          if_neg (fun h' => heq h'.symm)]
        rfl
    | cons p rs =>
      rw [renderJar_cons2]
      have hshape : n ++ '=' :: v ++ ';' :: ' ' :: renderJar (p :: rs) =
          (n ++ '=' :: v) ++ ';' :: (' ' :: renderJar (p :: rs)) := by simp
      show getCookieLoop (name ++ ['='])
          (splitOnChar ';' (n ++ '=' :: v ++ ';' :: ' ' :: renderJar (p :: rs))) = _
      rw [hshape, splitOnChar_append_sep ';' _ _ hpiece]
      simp only [getCookieLoop]
      rw [htrim, hjarGet]
      by_cases heq : name = n
      · subst heq
        rw [if_pos (isPrefixOf_self_value name v).1, if_pos rfl,
          (isPrefixOf_self_value name v).2]
      · rw [if_neg (fun hcontra => heq ((isPrefixOf_nameEq name n v hname hneq).mp hcontra)),
          if_neg (fun h' => heq h'.symm)]
        rw [getCookieLoop_space]
        exact ih name (fun q hq => hjar q (List.mem_cons_of_mem _ hq)) hname

theorem jarGet_jarSet (jar : Jar) (name value : JStr) :
    jarGet (jarSet jar name value) name = some value := by
  induction jar with
  | nil => simp [jarSet, jarGet]
  | cons hd rest ih =>
    obtain ⟨n, v⟩ := hd
    by_cases h : n = name
    · simp [jarSet, jarGet, h]
    · simp [jarSet, jarGet, h, ih]

theorem wfJar_jarSet : ∀ (jar : Jar), wfJar jar → ∀ (name value : JStr),
    wfName name → wfValue value → wfJar (jarSet jar name value) := by
  intro jar
  induction jar with
  | nil =>
    intro _ name value hn hv p hp
    simp only [jarSet, List.mem_singleton] at hp
    rw [hp]
    exact ⟨hn, hv⟩
  | cons hd rest ih =>
    intro hjar name value hn hv p hp
    obtain ⟨n, v⟩ := hd
    by_cases h : n = name
    · simp only [jarSet, if_pos h] at hp
      rcases List.mem_cons.mp hp with h1 | h1
      · rw [h1]
        exact ⟨(hjar (n, v) (by simp)).1, hv⟩
      · exact hjar p (List.mem_cons_of_mem _ h1)
    · simp only [jarSet, if_neg h] at hp
      rcases List.mem_cons.mp hp with h1 | h1
      · rw [h1]
        exact hjar (n, v) (by simp)
      · exact ih (fun q hq => hjar q (List.mem_cons_of_mem _ hq)) name value hn hv p h1

theorem wfChar_ne_space (c : Char) (h : wfChar c) : c ≠ ' ' := by
  intro hc
  rw [hc] at h
  exact absurd h.2.2.2 (by decide)

theorem wfValue_quoteStr (s : JStr) (h : wfString s) :
    ∀ c ∈ quoteStr s, c ≠ ';' ∧ c ≠ ' ' := by
  intro c hc
  rcases List.mem_cons.mp hc with h1 | h1
  · rw [h1]; exact ⟨by decide, by decide⟩
  · rcases List.mem_append.mp h1 with h2 | h2
    · exact ⟨(h c h2).2.2.1, wfChar_ne_space c (h c h2)⟩
    · rw [List.mem_singleton.mp h2]; exact ⟨by decide, by decide⟩

theorem wfValue_joinComma : ∀ (cats : List JStr), (∀ cat ∈ cats, wfString cat) →
    ∀ c ∈ joinComma (cats.map quoteStr), c ≠ ';' ∧ c ≠ ' ' := by
  intro cats
  induction cats with
  | nil => intro _ c hc; simp [joinComma_nil] at hc
  | cons c0 cs ih =>
    intro hw c hc
    cases cs with
    | nil =>
      rw [List.map_cons, List.map_nil, joinComma_single] at hc
      exact wfValue_quoteStr c0 (hw c0 (by simp)) c hc
    | cons c1 cs2 =>
      rw [List.map_cons, List.map_cons, joinComma_cons2] at hc
      rcases List.mem_append.mp hc with h1 | h1
      · exact wfValue_quoteStr c0 (hw c0 (by simp)) c h1
      · rcases List.mem_cons.mp h1 with h2 | h2
        · rw [h2]; exact ⟨by decide, by decide⟩
        · rw [← List.map_cons] at h2
          exact ih (fun cat hcat => hw cat (List.mem_cons_of_mem _ hcat)) c h2

theorem wfValue_serialize (d : Decision) (hd : wfDecision d) :
    wfValue (serializeDecision d) := by
  obtain ⟨hcats, hts⟩ := hd
  have hkeyA : ∀ c ∈ keyAccepted, c ≠ ';' ∧ c ≠ ' ' := by decide
  have hkeyC : ∀ c ∈ keyCategories, c ≠ ';' ∧ c ≠ ' ' := by decide
  have hkeyT : ∀ c ∈ keyTimestamp, c ≠ ';' ∧ c ≠ ' ' := by decide
  have hbool : ∀ c ∈ (if d.accepted then litTrue else litFalse), c ≠ ';' ∧ c ≠ ' ' := by
    cases d.accepted <;> decide
  intro c hc
  unfold serializeDecision at hc
  simp only [List.append_assoc, List.mem_append, List.mem_cons, List.mem_singleton,
    List.not_mem_nil, or_false] at hc
  rcases hc with h1 | h1 | h1 | h1 | h1 | h1 | h1 | h1
  · exact hkeyA c h1
  · exact hbool c h1
  · exact hkeyC c h1
  · exact wfValue_joinComma d.categories hcats c h1
  · rw [h1]; exact ⟨by decide, by decide⟩
  · exact hkeyT c h1
  · exact wfValue_quoteStr d.timestamp hts c h1
  · rw [h1]; exact ⟨by decide, by decide⟩

theorem serialize_ne_nil (d : Decision) : serializeDecision d ≠ [] := by
  have h : ∃ r, serializeDecision d = '\x7b' :: r := ⟨_, rfl⟩
  obtain ⟨r, hr⟩ := h
  rw [hr]
  simp

/-- Round trip (C6 helper): after the library writes a well-formed decision,
`getConsent` reads it back exactly. -/
theorem getConsent_jarSet_serialize (jar : Jar) (d : Decision) (name : JStr)
    (hjar : wfJar jar) (hd : wfDecision d) (hname : wfName name) :
    getConsent (jarSet jar name (serializeDecision d)) name = Except.ok (some d) := by
  have hval : wfValue (serializeDecision d) := wfValue_serialize d hd
  have hwf2 : wfJar (jarSet jar name (serializeDecision d)) :=
    wfJar_jarSet jar hjar name (serializeDecision d) hname hval
  have hneq : ('=' : Char) ∉ name := fun hc => (hname.2 '=' hc).2.1 rfl
  have hcg : getCookie (renderJar (jarSet jar name (serializeDecision d))) name =
      some (serializeDecision d) := by
    rw [getCookie_renderJar _ name hwf2 hneq, jarGet_jarSet]
  simp only [getConsent, hcg]
  rw [if_neg (serialize_ne_nil d)]
  simp only [parseDecision_serialize d hd]

/-!
Helper lemmas: the timed visibility model.
-/

theorem fireDue_all (t : Nat) (s : TimedState) (h : ∀ p ∈ s.pending, p.1 ≤ t) :
    fireDue t s = ⟨fireTimers s.banner s.pending, []⟩ := by
  have h1 : s.pending.filter (fun p => decide (p.1 ≤ t)) = s.pending :=
    List.filter_eq_self.mpr (fun a ha => decide_eq_true (h a ha))
  have h2 : s.pending.filter (fun p => decide (t < p.1)) = [] :=
    List.filter_eq_nil_iff.mpr (fun a ha => by simpa using Nat.not_lt.mpr (h a ha))
  unfold fireDue
  rw [h1, h2]

theorem c2Aux : ∀ (es : List (Nat × BannerCall)) (e : Nat × BannerCall) (s : TimedState)
    (lst : Nat × BannerCall),
    List.Chain' (fun a b => a.1 + 300 ≤ b.1) (e :: es) →
    (∀ p ∈ s.pending, p.1 ≤ e.1) →
    (e :: es).getLast? = some lst →
    (runCalls s (e :: es)).banner.displayBlock = isShowCall lst.2 := by
  intro es
  induction es with
  | nil =>
    intro e s lst _ hp hl
    have hlst : e = lst := by simpa using hl
    subst hlst
    show (flushAll (stepCall s e)).banner.displayBlock = isShowCall e.2
    unfold stepCall
    rw [fireDue_all e.1 s hp]
    obtain ⟨t, c⟩ := e
    cases c with
    | showCall => simp [applyCall, flushAll, fireTimers, applyTimer, isShowCall]
    | hideCall => simp [applyCall, flushAll, fireTimers, applyTimer, isShowCall]
  | cons e2 es2 ih =>
    intro e s lst hch hp hl
    rw [List.getLast?_cons_cons] at hl
    have hgap : e.1 + 300 ≤ e2.1 := (List.chain'_cons.mp hch).1
    have hch2 := (List.chain'_cons.mp hch).2
    have hstep : runCalls s (e :: e2 :: es2) = runCalls (stepCall s e) (e2 :: es2) := by
      unfold runCalls
      rw [List.foldl_cons]
    rw [hstep]
    apply ih e2 (stepCall s e) lst hch2 ?_ hl
    intro p hp2
    unfold stepCall at hp2
    rw [fireDue_all e.1 s hp] at hp2
    obtain ⟨t, c⟩ := e
    cases c with
    | showCall =>
      simp only [applyCall, List.nil_append, List.mem_singleton] at hp2
      rw [hp2]
      simp only []
      omega
    | hideCall =>
      simp only [applyCall, List.nil_append, List.mem_singleton] at hp2
      rw [hp2]
      simp only []
      omega

/-!
Claim theorems.
-/

/-- C1 (code bug): the spec requires that a stored record which fails to
parse is treated as absent and never surfaces an error, but `getConsent`
calls `JSON.parse` unguarded: on the stored value `garbage` it throws a
`SyntaxError`, while a genuinely absent record yields the absent result. -/
theorem c1_malformed_record_throws :
    getConsent jarMalformed cookieNameDefault = Except.error JsError.syntaxError
    ∧ getConsent [] cookieNameDefault = Except.ok none :=
  ⟨rfl, rfl⟩

/-- C2 (counterexample): calling `hide()` at t=0 and `show()` at t=100
(before the hide's 300ms deferred display toggle fires) leaves the banner
with `display: none` — the final display state contradicts the
last-invoked transition, which was `show`. -/
theorem c2_counterexample :
    (runCalls ⟨⟨false, false⟩, []⟩
        [(0, BannerCall.hideCall), (100, BannerCall.showCall)]).banner.displayBlock = false
    ∧ [(0, BannerCall.hideCall), (100, BannerCall.showCall)].getLast? =
        some (100, BannerCall.showCall)
    ∧ isShowCall BannerCall.showCall = true :=
  ⟨rfl, rfl, rfl⟩

/-- C2 (amended): the deferred actions are neither cancelled nor
state-checked, so last-transition-wins holds only when consecutive calls
are separated by at least the 300ms hide delay, letting every pending
timer fire before the next call; then the final display state equals the
last-invoked transition. -/
theorem c2_amended (s0 : TimedState) (es : List (Nat × BannerCall)) (lst : Nat × BannerCall)
    (hp : s0.pending = []) (hch : List.Chain' (fun a b => a.1 + 300 ≤ b.1) es)
    (hl : es.getLast? = some lst) :
    (runCalls s0 es).banner.displayBlock = isShowCall lst.2 := by
  cases es with
  | nil => simp at hl
  | cons e es2 =>
    apply c2Aux es2 e s0 lst hch ?_ hl
    rw [hp]
    intro p hp2
    simp at hp2

/-- C2 witness: a hide at t=0 followed by a show at t=300 settles with the
banner displayed, matching the last transition. -/
theorem c2_amended_witness :
    (runCalls ⟨⟨false, false⟩, []⟩
        [(0, BannerCall.hideCall), (300, BannerCall.showCall)]).banner.displayBlock
      = isShowCall (300, BannerCall.showCall).2 :=
  c2_amended ⟨⟨false, false⟩, []⟩ [(0, BannerCall.hideCall), (300, BannerCall.showCall)]
    (300, BannerCall.showCall) rfl (List.chain'_pair.mpr (by omega)) rfl

/-- C3 (counterexample): accepting with only the analytics checkbox checked
persists an accepted decision whose categories do not contain
"necessary". -/
theorem c3_counterexample :
    (acceptDecision [boxWitnessAnalytics] tsWitness).accepted = true
    ∧ necessaryCat ∉ (acceptDecision [boxWitnessAnalytics] tsWitness).categories :=
  ⟨rfl, by decide⟩

/-- C3 (amended): every decision persisted via accept or reject has a
non-empty categories list, and it contains "necessary" whenever the
decision is accepted and no checkbox was checked at call time (the
fallback case); with checkboxes checked, the categories are exactly the
checked values and need not contain "necessary". -/
theorem c3_amended (u : UserChoice) (boxes : List Checkbox) (now : JStr) :
    (writtenDecision u boxes now).categories ≠ []
    ∧ ((writtenDecision u boxes now).accepted = true → getSelectedCategories boxes = [] →
        necessaryCat ∈ (writtenDecision u boxes now).categories) := by
  cases u with
  | rejectChoice =>
    refine ⟨by simp [writtenDecision, rejectDecision], ?_⟩
    intro _ _
    simp [writtenDecision, rejectDecision]
  | acceptChoice =>
    constructor
    · show (acceptDecision boxes now).categories ≠ []
      rcases hsel : getSelectedCategories boxes with _ | ⟨x, xs⟩
      · simp [acceptDecision, hsel, defaultCategories]
      · simp [acceptDecision, hsel]
    · intro _ hsel
      simp [writtenDecision, acceptDecision, hsel, defaultCategories]

/-- C3 witness: accepting with no checkbox checked yields categories
containing "necessary". -/
theorem c3_amended_witness :
    necessaryCat ∈ (writtenDecision UserChoice.acceptChoice [] tsWitness).categories :=
  (c3_amended UserChoice.acceptChoice [] tsWitness).2 rfl rfl

/-- C4 (code bug): with no matching container, `init` warns and returns
without throwing and the read-only operations behave on absent state, but
`show`, `hide`, `accept`, `reject` and `revoke` all dereference the
missing container and throw a `TypeError` — the system is not inert as
the spec claims. -/
theorem c4_missing_container_ops_throw :
    (initOp none []).error = none
    ∧ (initOp none []).state = ⟨none, []⟩
    ∧ (showOp (initOp none []).state).error = some JsError.typeError
    ∧ (hideOp (initOp none []).state).error = some JsError.typeError
    ∧ (acceptOp (initOp none []).state tsWitness).error = some JsError.typeError
    ∧ (rejectOp (initOp none []).state tsWitness).error = some JsError.typeError
    ∧ (revokeOp (initOp none []).state).error = some JsError.typeError
    ∧ hasConsent [] cookieNameDefault analyticsCat = Except.ok false
    ∧ (viewCookiesOp []).1 = [] :=
  ⟨rfl, rfl, rfl, rfl, rfl, rfl, rfl, rfl, rfl⟩

/-- C5 (counterexample): after a concrete `accept()`, the persisted value
is the raw JSON serialization, which differs from its URL-encoding (the
encoding escapes `\x7b`, `"` and `,`), so the stored value is not the
URL-encoded serialization the spec describes. -/
theorem c5_counterexample :
    jarGet (acceptOp ⟨some containerWitness, []⟩ tsWitness).state.jar cookieNameDefault
      = some (serializeDecision (acceptDecision [boxWitnessAnalytics] tsWitness))
    ∧ serializeDecision (acceptDecision [boxWitnessAnalytics] tsWitness)
      ≠ encodeURIComponent (serializeDecision (acceptDecision [boxWitnessAnalytics] tsWitness)) :=
  ⟨rfl, by decide⟩

/-- C5 (amended): the value persisted under the record name is the plain
(not URL-encoded) JSON serialization of the decision; the assigned cookie
string carries the name=value pair before the first `;`, an absolute
`expires` attribute, and the `path=/` and `SameSite=Strict` attributes as
its suffix; and no decision's serialization equals its URL-encoding. -/
theorem c5_amended (name v e : JStr) (hv : ∀ c ∈ v, c ≠ ';') (hn : ∀ c ∈ name, c ≠ ';') :
    (splitOnChar ';' (setCookieString name v e)).headD [] = name ++ '=' :: v
    ∧ tailAttrs.IsSuffix (setCookieString name v e)
    ∧ (expiresAttr ++ e ++ tailAttrs).IsSuffix (setCookieString name v e)
    ∧ (∀ d : Decision, serializeDecision d ≠ encodeURIComponent (serializeDecision d)) := by
  have hexp : expiresAttr = ';' :: ("expires=".toList) := rfl
  have hpiece : ∀ c ∈ name ++ '=' :: v, c ≠ ';' := by
    intro c hc
    rcases List.mem_append.mp hc with h1 | h1
    · exact hn c h1
    · rcases List.mem_cons.mp h1 with h2 | h2
      · rw [h2]; decide
      · exact hv c h2
  refine ⟨?_, ?_, ?_, ?_⟩
  · have hshape : setCookieString name v e =
        (name ++ '=' :: v) ++ ';' :: ("expires=".toList ++ (e ++ tailAttrs)) := by
      simp [setCookieString, hexp]
    rw [hshape, splitOnChar_append_sep ';' _ _ hpiece]
    simp
  · exact ⟨name ++ '=' :: v ++ expiresAttr ++ e, by simp [setCookieString]⟩
  · exact ⟨name ++ '=' :: v, by simp [setCookieString]⟩
  · intro d hcontra
    have h1 : (serializeDecision d).headD ' ' = '\x7b' := rfl
    have h2 : (encodeURIComponent (serializeDecision d)).headD ' ' = '%' := rfl
    rw [hcontra, h2] at h1
    exact absurd h1 (by decide)

/-- C5 witness: concrete instance of the amended layout property. -/
theorem c5_amended_witness :
    (splitOnChar ';' (setCookieString cookieNameDefault valView tsWitness)).headD []
      = cookieNameDefault ++ '=' :: valView :=
  (c5_amended cookieNameDefault valView tsWitness (by decide) (by decide)).1

/-- C6: writing a well-formed decision and immediately reading it back
yields a decision with the same accepted flag and the same categories up
to order (here: literally equal). -/
theorem c6_write_read_roundtrip (jar : Jar) (d : Decision) (name : JStr)
    (hjar : wfJar jar) (hd : wfDecision d) (hname : wfName name) :
    ∃ d2 : Decision,
      getConsent (jarSet jar name (serializeDecision d)) name = Except.ok (some d2)
      ∧ d2.accepted = d.accepted ∧ d2.categories.Perm d.categories :=
  ⟨d, getConsent_jarSet_serialize jar d name hjar hd hname, rfl, List.Perm.refl _⟩

/-- C6 witness: concrete round trip through an empty jar. -/
theorem c6_witness :
    ∃ d2 : Decision,
      getConsent (jarSet [] cookieNameDefault (serializeDecision dWitness)) cookieNameDefault
        = Except.ok (some d2)
      ∧ d2.accepted = dWitness.accepted ∧ d2.categories.Perm dWitness.categories :=
  c6_write_read_roundtrip [] dWitness cookieNameDefault
    (fun p hp => absurd hp (List.not_mem_nil p)) (by decide) (by decide)

/-- C7: `reject()` persists exactly `\x7baccepted: false, categories:
["necessary"], timestamp: now\x7d` regardless of checkbox state,
transitions the banner to hidden, and emits "consent-rejected" with that
decision; moreover every decision the library persists with
`accepted = false` has categories exactly `["necessary"]`. -/
theorem c7_reject_exact (c : Container) (jar : Jar) (now : JStr) :
    rejectOp ⟨some c, jar⟩ now =
      ⟨⟨some (hideContainer c),
          jarSet jar cookieNameDefault (serializeDecision (rejectDecision now))⟩,
        [CCEvent.bannerHidden, CCEvent.consentRejected (rejectDecision now)], none⟩
    ∧ rejectDecision now = ⟨false, [necessaryCat], now⟩
    ∧ (∀ (u : UserChoice) (boxes : List Checkbox) (now2 : JStr),
        (writtenDecision u boxes now2).accepted = false →
        (writtenDecision u boxes now2).categories = [necessaryCat]) := by
  refine ⟨rfl, rfl, ?_⟩
  intro u boxes now2 hacc
  cases u with
  | acceptChoice => exact absurd hacc (by simp [writtenDecision, acceptDecision])
  | rejectChoice => rfl

/-- C7 witness: a concrete rejected decision has categories exactly
`["necessary"]`. -/
theorem c7_witness :
    (writtenDecision UserChoice.rejectChoice [boxWitnessAnalytics] tsWitness).categories
      = [necessaryCat] :=
  (c7_reject_exact containerWitness [] tsWitness).2.2 UserChoice.rejectChoice
    [boxWitnessAnalytics] tsWitness rfl

/-- C8: `accept()` computes categories as the checked checkbox values, or
exactly `["necessary", "analytics", "marketing"]` when none is checked;
it persists the accepted decision with the current timestamp, transitions
the banner to hidden, and emits "consent-given" carrying the decision. -/
theorem c8_accept_behavior (c : Container) (jar : Jar) (now : JStr) :
    acceptOp ⟨some c, jar⟩ now =
      ⟨⟨some (hideContainer c),
          jarSet jar cookieNameDefault (serializeDecision (acceptDecision c.boxes now))⟩,
        [CCEvent.bannerHidden, CCEvent.consentGiven (acceptDecision c.boxes now)], none⟩
    ∧ (acceptDecision c.boxes now).accepted = true
    ∧ (acceptDecision c.boxes now).timestamp = now
    ∧ (getSelectedCategories c.boxes ≠ [] →
        (acceptDecision c.boxes now).categories = getSelectedCategories c.boxes)
    ∧ (getSelectedCategories c.boxes = [] →
        (acceptDecision c.boxes now).categories = [necessaryCat, analyticsCat, marketingCat]) := by
  refine ⟨rfl, rfl, rfl, ?_, ?_⟩
  · intro hne
    rcases hsel : getSelectedCategories c.boxes with _ | ⟨x, xs⟩
    · exact absurd hsel hne
    · simp [acceptDecision, hsel]
  · intro hsel
    simp [acceptDecision, hsel, defaultCategories]

/-- C8 witness: with the analytics checkbox checked, the persisted
categories are exactly the checked values. -/
theorem c8_witness :
    (acceptDecision containerWitness.boxes tsWitness).categories
      = getSelectedCategories containerWitness.boxes :=
  (c8_accept_behavior containerWitness [] tsWitness).2.2.2.1 (by decide)

/-- C9: initialization decides visibility from the raw presence of the
stored value only — it shows the banner iff the raw value is absent or
empty, hides it for any non-empty value even when that value fails to
parse, and in the unparseable case `getConsent` throws on the very record
that kept the banner hidden. -/
theorem c9_visibility_raw_presence (c : Container) (jar : Jar) :
    ((initOp (some c) jar).events = [CCEvent.bannerShown] ↔
      (getCookie (renderJar jar) cookieNameDefault = none ∨
        getCookie (renderJar jar) cookieNameDefault = some []))
    ∧ (∀ v : JStr, getCookie (renderJar jar) cookieNameDefault = some v → v ≠ [] →
        (initOp (some c) jar).events = [CCEvent.bannerHidden]
        ∧ (parseDecision v = none →
            getConsent jar cookieNameDefault = Except.error JsError.syntaxError)) := by
  cases hraw : getCookie (renderJar jar) cookieNameDefault with
  | none =>
    constructor
    · simp [initOp, hraw, jsTruthyStr]
    · intro v hv
      exact absurd hv (by simp)
  | some v =>
    by_cases hv : v = []
    · subst hv
      constructor
      · simp [initOp, hraw, jsTruthyStr]
      · intro v2 hv2 hne
        injection hv2 with h
        exact absurd h.symm hne
    · have htru : jsTruthyStr (some v) = true := by
        simp [jsTruthyStr, hv]
      constructor
      · simp [initOp, hraw, htru, hv]
      · intro v2 hv2 hne
        injection hv2 with h
        subst h
        refine ⟨by simp [initOp, hraw, htru], ?_⟩
        intro hparse
        simp only [getConsent, hraw]
        rw [if_neg hv]
        simp [hparse]

/-- C9 witness: a malformed stored record keeps the banner hidden at
initialization while `getConsent` throws on the same record. -/
theorem c9_witness :
    (initOp (some containerWitness) jarMalformed).events = [CCEvent.bannerHidden]
    ∧ getConsent jarMalformed cookieNameDefault = Except.error JsError.syntaxError := by
  have h := (c9_visibility_raw_presence containerWitness jarMalformed).2 valMalformed
    rfl (by decide)
  exact ⟨h.1, h.2 rfl⟩

theorem viewCookiesLoop_space (s : JStr) :
    viewCookiesLoop (splitOnChar ';' (' ' :: s)) = viewCookiesLoop (splitOnChar ';' s) := by
  cases hs : splitOnChar ';' s with
  | nil => exact absurd hs (splitOnChar_ne_nil ';' s)
  | cons p ps =>
    have h2 : splitOnChar ';' (' ' :: s) = (' ' :: p) :: ps := by
      simp only [splitOnChar]
      rw [if_neg (by decide), hs]
    rw [h2]
    simp only [viewCookiesLoop]
    rw [trimBoth_space]

theorem viewCookies_renderJar : ∀ (jar : Jar), wfJar jar →
    viewCookies (renderJar jar) =
      jar.map (fun p => (p.1, p.2.takeWhile (fun ch => ch ≠ '='))) := by
  intro jar
  induction jar with
  | nil => intro _; rfl
  | cons hd rest ih =>
    intro hjar
    obtain ⟨n, v⟩ := hd
    obtain ⟨⟨hne, hnchars⟩, hvchars⟩ := hjar (n, v) (by simp)
    have hpiece : ∀ c ∈ n ++ '=' :: v, c ≠ ';' := by
      intro c hc
      rcases List.mem_append.mp hc with h1 | h1
      · exact (hnchars c h1).1
      · rcases List.mem_cons.mp h1 with h2 | h2
        · rw [h2]; decide
        · exact (hvchars c h2).1
    have hnospace : ∀ c ∈ n ++ '=' :: v, c ≠ ' ' := by
      intro c hc
      rcases List.mem_append.mp hc with h1 | h1
      · exact (hnchars c h1).2.2
      · rcases List.mem_cons.mp h1 with h2 | h2
        · rw [h2]; decide
        · exact (hvchars c h2).2
    have htrim : trimBoth (n ++ '=' :: v) = n ++ '=' :: v := trimBoth_id _ hnospace
    have hneqn : ∀ c ∈ n, c ≠ '=' := fun c hc => (hnchars c hc).2.1
    have hsplit : splitOnChar '=' (n ++ '=' :: v) = n :: splitOnChar '=' v :=
      splitOnChar_append_sep '=' n v hneqn
    have hfirst : ∀ tailPieces : List JStr,
        viewCookiesLoop ((n ++ '=' :: v) :: tailPieces) =
          (n, v.takeWhile (fun ch => ch ≠ '=')) :: viewCookiesLoop tailPieces := by
      intro tailPieces
      simp only [viewCookiesLoop]
      rw [htrim, hsplit]
      simp only [List.headD_cons, List.drop_succ_cons, List.drop_zero]
      rw [if_neg hne, splitOnChar_headD]
    cases rest with
    | nil =>
      rw [renderJar_single]
      show viewCookiesLoop (splitOnChar ';' (n ++ '=' :: v)) = _
      rw [splitOnChar_sepFree ';' _ hpiece, hfirst]
      rfl
    | cons p rs =>
      rw [renderJar_cons2]
      have hshape : n ++ '=' :: v ++ ';' :: ' ' :: renderJar (p :: rs) =
          (n ++ '=' :: v) ++ ';' :: (' ' :: renderJar (p :: rs)) := by simp
      show viewCookiesLoop
          (splitOnChar ';' (n ++ '=' :: v ++ ';' :: ' ' :: renderJar (p :: rs))) = _
      rw [hshape, splitOnChar_append_sep ';' _ _ hpiece, hfirst, viewCookiesLoop_space]
      rw [show viewCookiesLoop (splitOnChar ';' (renderJar (p :: rs))) =
          viewCookies (renderJar (p :: rs)) from rfl]
      rw [ih (fun q hq => hjar q (List.mem_cons_of_mem _ hq))]
      rfl

/-- C10: for a stored cookie whose raw value contains an `'='`, the list
returned by `viewCookies()` (and carried in the "cookies-viewed" payload)
reports that value truncated at the first `'='` — the raw prefix of the
stored text, not the full value and with no percent-decoding applied. -/
theorem c10_view_truncates (jar : Jar) (n v : JStr) (hjar : wfJar jar)
    (hmem : (n, v) ∈ jar) (heq : ('=' : Char) ∈ v) :
    (n, v.takeWhile (fun ch => ch ≠ '=')) ∈ viewCookies (renderJar jar)
    ∧ v.takeWhile (fun ch => ch ≠ '=') ≠ v := by
  constructor
  · rw [viewCookies_renderJar jar hjar]
    exact List.mem_map.mpr ⟨(n, v), hmem, rfl⟩
  · intro hcontra
    have h2 := List.takeWhile_eq_self_iff.mp hcontra '=' heq
    simp at h2

/-- C10 witness: the cookie `abc` with stored value `b=c` is reported with
value `b`. -/
theorem c10_witness :
    (nameView, valView.takeWhile (fun ch => ch ≠ '=')) ∈ viewCookies (renderJar jarView)
    ∧ valView.takeWhile (fun ch => ch ≠ '=') ≠ valView :=
  c10_view_truncates jarView nameView valView (by decide) (by decide) (by decide)

end CookieConsentSpec
